import Mathlib

/-!
Verification development for senzing-mapping-assistant.py.

The script has three operations:
 - do_prepare: reads a JSONLines file (through a capped generator), groups
   values by key, and writes one file per key under a per-key subdirectory.
 - do_train: calls sklearn load_files on the input directory and pickles
   the resulting raw training set to the model file.
 - do_test_phrase: unpickles the training set, fits CountVectorizer,
   TfidfTransformer and MultinomialNB from scratch, and predicts the
   category of the test phrase.

The embedding below models the script's own code directly, and the sklearn
calls it makes (CountVectorizer, TfidfTransformer, MultinomialNB fit and
predict, load_files) by their documented default algorithms.  Filesystem
state is passed explicitly; Python exceptions are modelled with Except and
Option.
-/

/-- Word characters of the CountVectorizer token pattern (runs of word
characters of length at least two); modelled over ASCII alphanumerics and
the underscore. -/
def isWordChar (c : Char) : Bool := c.isAlphanum || c == '_'

/-- Lower-casing of a string, character by character (Python str.lower on
the ASCII range). -/
def strToLower (s : String) : String := String.mk (s.data.map Char.toLower)

/-- Scanner for the maximal runs of word characters in a character list;
cur accumulates the current run in reverse. -/
def tokensAux : List Char → List Char → List (List Char)
  | cur, [] => if cur.isEmpty then [] else [cur.reverse]
  | cur, c :: cs =>
      if isWordChar c then tokensAux (c :: cur) cs
      else if cur.isEmpty then tokensAux [] cs
      else cur.reverse :: tokensAux [] cs

/-- Tokenizer of sklearn CountVectorizer with default settings: lower-case
the text, take the maximal runs of word characters, and keep only tokens of
length at least 2. -/
def tokenize (s : String) : List String :=
  ((tokensAux [] (strToLower s).data).map String.mk).filter (fun t => 2 ≤ t.length)

/-- Number of occurrences of a term in a document, one cell of the
document-term count matrix produced by CountVectorizer. -/
def cntTok (d term : String) : ℕ := (tokenize d).count term

/-- Lexicographic comparison of character lists by code point, the order
Python's sorted uses on strings. -/
def charListLe : List Char → List Char → Bool
  | [], _ => true
  | _ :: _, [] => false
  | a :: as, b :: bs =>
      if a.toNat < b.toNat then true
      else if b.toNat < a.toNat then false
      else charListLe as bs

/-- Lexicographic order on strings by code point. -/
def strLe (a b : String) : Prop := charListLe a.data b.data = true

instance : DecidableRel strLe := fun a b =>
  inferInstanceAs (Decidable (charListLe a.data b.data = true))

instance : IsTotal String strLe where
  total := by
    have aux : ∀ as bs : List Char, charListLe as bs = true ∨ charListLe bs as = true := by
      intro as
      induction as with
      | nil => intro bs; left; rfl
      | cons a as ih =>
        intro bs
        cases bs with
        | nil => right; rfl
        | cons b bs =>
          simp only [charListLe]
          rcases Nat.lt_trichotomy a.toNat b.toNat with h | h | h
          · left; rw [if_pos h]
          · rw [if_neg (by omega), if_neg (by omega), if_neg (by omega),
              if_neg (by omega)]
            exact ih bs
          · right; rw [if_pos h]
    intro a b
    exact aux a.data b.data

instance : IsTrans String strLe where
  trans := by
    have aux : ∀ as bs cs : List Char, charListLe as bs = true →
        charListLe bs cs = true → charListLe as cs = true := by
      intro as
      induction as with
      | nil => intro bs cs _ _; rfl
      | cons a as ih =>
        intro bs cs h1 h2
        cases bs with
        | nil => simp [charListLe] at h1
        | cons b bs =>
          cases cs with
          | nil => simp [charListLe] at h2
          | cons c cs =>
            simp only [charListLe] at h1 h2 ⊢
            have H1 : a.toNat < b.toNat ∨
                (a.toNat = b.toNat ∧ charListLe as bs = true) := by
              by_cases hab : a.toNat < b.toNat
              · exact Or.inl hab
              · by_cases hba : b.toNat < a.toNat
                · rw [if_neg hab, if_pos hba] at h1; simp at h1
                · exact Or.inr ⟨by omega, by rwa [if_neg hab, if_neg hba] at h1⟩
            have H2 : b.toNat < c.toNat ∨
                (b.toNat = c.toNat ∧ charListLe bs cs = true) := by
              by_cases hbc : b.toNat < c.toNat
              · exact Or.inl hbc
              · by_cases hcb : c.toNat < b.toNat
                · rw [if_neg hbc, if_pos hcb] at h2; simp at h2
                · exact Or.inr ⟨by omega, by rwa [if_neg hbc, if_neg hcb] at h2⟩
            rcases H1 with hab | ⟨hab, hrec1⟩ <;> rcases H2 with hbc | ⟨hbc, hrec2⟩
            · rw [if_pos (by omega)]
            · rw [if_pos (by omega)]
            · rw [if_pos (by omega)]
            · rw [if_neg (by omega), if_neg (by omega)]
              exact ih bs cs hrec1 hrec2
    intro a b c h1 h2
    exact aux a.data b.data c.data h1 h2

instance : IsAntisymm String strLe where
  antisymm := by
    have aux : ∀ as bs : List Char, charListLe as bs = true →
        charListLe bs as = true → as = bs := by
      intro as
      induction as with
      | nil =>
        intro bs h1 h2
        cases bs with
        | nil => rfl
        | cons b bs => simp [charListLe] at h2
      | cons a as ih =>
        intro bs h1 h2
        cases bs with
        | nil => simp [charListLe] at h1
        | cons b bs =>
          simp only [charListLe] at h1 h2
          have H1 : a.toNat < b.toNat ∨
              (a.toNat = b.toNat ∧ charListLe as bs = true) := by
            by_cases hab : a.toNat < b.toNat
            · exact Or.inl hab
            · by_cases hba : b.toNat < a.toNat
              · rw [if_neg hab, if_pos hba] at h1; simp at h1
              · exact Or.inr ⟨by omega, by rwa [if_neg hab, if_neg hba] at h1⟩
          have H2 : b.toNat < a.toNat ∨
              (b.toNat = a.toNat ∧ charListLe bs as = true) := by
            by_cases hba : b.toNat < a.toNat
            · exact Or.inl hba
            · by_cases hab : a.toNat < b.toNat
              · rw [if_neg hba, if_pos hab] at h2; simp at h2
              · exact Or.inr ⟨by omega, by rwa [if_neg hba, if_neg hab] at h2⟩
          rcases H1 with hab | ⟨hab, hrec1⟩ <;> rcases H2 with hba | ⟨hba, hrec2⟩
          · omega
          · omega
          · omega
          · have hchar : a = b := Char.eq_of_val_eq (UInt32.toNat.inj hab)
            rw [hchar, ih bs hrec1 hrec2]
    intro a b h1 h2
    have hdata := aux a.data b.data h1 h2
    cases a; cases b
    exact congrArg String.mk hdata

/-- Vocabulary built by CountVectorizer.fit: the distinct tokens of all
documents, in sorted order (sklearn assigns indices by sorting the
vocabulary alphabetically). -/
def vocabOf (docs : List String) : List String :=
  List.insertionSort strLe (docs.flatMap tokenize).dedup

/-- Document frequency of a term: the number of documents whose count-matrix
entry for the term is nonzero, as computed by TfidfTransformer.fit on the
count matrix. -/
def dfTerm (docs : List String) (term : String) : ℕ :=
  docs.countP (fun d => cntTok d term != 0)

/-- Document frequency of the vocabulary term with index i. -/
def dfOf (docs : List String) (i : ℕ) : ℕ :=
  dfTerm docs ((vocabOf docs).getD i "")

/-- Class list of MultinomialNB.fit: numpy unique of the label vector,
that is the distinct labels in sorted order. -/
def classesOf (target : List ℕ) : List ℕ :=
  List.insertionSort (fun a b : ℕ => a ≤ b) target.dedup

/-- Raw training set loaded by sklearn load_files and pickled by do_train:
file contents, integer labels, category names (sorted directory names) and
file paths.  This is the whole content of the artifact the script writes. -/
structure TrainingSet where
  data : List String
  target : List ℕ
  target_names : List String
  filenames : List String
deriving DecidableEq

/-- Sort a list of (name, payload) pairs by name, as load_files sorts both
the category directories and the files inside each directory. -/
def sortByName {α : Type} (l : List (String × α)) : List (String × α) :=
  List.insertionSort (fun a b : String × α => strLe a.1 b.1) l

/-- Model of sklearn load_files on a directory tree, given as a list of
(directory name, list of (file name, file contents)) pairs: directories are
sorted by name and become the categories, files inside a directory are
sorted by name, and each file contributes its contents to data, its
directory's index to target and its path to filenames.  (load_files then
applies a fixed-seed shuffle, a simultaneous permutation of data, target
and filenames; it is the identity on the single-file corpora evaluated
concretely below, and every property proved universally here is invariant
under such a joint permutation.) -/
def loadFiles (corpus : List (String × List (String × String))) : TrainingSet :=
  let sorted := sortByName corpus
  { data := (sorted.map (fun c => (sortByName c.2).map Prod.snd)).flatten
    target := (sorted.enum.map (fun e => (sortByName e.2.2).map (fun _ => e.1))).flatten
    target_names := sorted.map Prod.fst
    filenames := (sorted.map (fun c => (sortByName c.2).map
      (fun f => c.1 ++ "/" ++ f.1))).flatten }

/-- One item of the serialized artifact stream: a pickled string or a
pickled natural number. -/
inductive PItem where
  | pstr (s : String)
  | pnat (n : ℕ)
deriving DecidableEq

/-- Read one string item of a pickle stream. -/
def readStr : PItem → Option String
  | PItem.pstr s => some s
  | PItem.pnat _ => none

/-- Read one natural-number item of a pickle stream. -/
def readNat : PItem → Option ℕ
  | PItem.pnat n => some n
  | PItem.pstr _ => none

/-- Read exactly n decoded items from the stream, returning them together
with the remaining stream; fails when the stream is too short or an item
does not decode. -/
def readList {β : Type} (dec : PItem → Option β) : ℕ → List PItem → Option (List β × List PItem)
  | 0, rest => some ([], rest)
  | _ + 1, [] => none
  | n + 1, it :: rest => do
      let b ← dec it
      let p ← readList dec n rest
      some (b :: p.1, p.2)

/-- Read one length-prefixed block from the stream. -/
def readBlock {β : Type} (dec : PItem → Option β) : List PItem → Option (List β × List PItem)
  | [] => none
  | it :: rest => do
      let n ← readNat it
      readList dec n rest

/-- Length-prefixed encoding of one block of the artifact. -/
def writeBlock {β : Type} (enc : β → PItem) (l : List β) : List PItem :=
  PItem.pnat l.length :: l.map enc

/-- Model of pickle.dump in do_train: serialize the raw training set
(all four fields) into a flat item stream. -/
def pickle_dump (ts : TrainingSet) : List PItem :=
  writeBlock PItem.pstr ts.data ++ writeBlock PItem.pnat ts.target ++
    writeBlock PItem.pstr ts.target_names ++ writeBlock PItem.pstr ts.filenames

/-- Model of pickle.load in do_test_phrase: parse the four blocks back and
require the stream to be fully consumed; any malformed stream yields none
(the corrupt-artifact failure). -/
def pickle_load (blob : List PItem) : Option TrainingSet := do
  let d ← readBlock readStr blob
  let t ← readBlock readNat d.2
  let n ← readBlock readStr t.2
  let f ← readBlock readStr n.2
  if f.2.isEmpty then some ⟨d.1, t.1, n.1, f.1⟩ else none

/-- Error taxonomy of the training operation.  Modelled from the spec:
the source has no validation or error path in do_train, so the spec's
InsufficientTrainingDataError exists only as the spec's vocabulary; the
Except codomain of do_train makes the spec's claimed failure statable. -/
inductive TrainError where
  | insufficientTrainingData
deriving DecidableEq

/-- The train operation: load_files on the input directory followed by
pickle.dump of the result.  The source performs no validation of the
corpus (no category-count or label-length check), so no error is ever
produced. -/
def do_train (corpus : List (String × List (String × String))) :
    Except TrainError (List PItem) :=
  Except.ok (pickle_dump (loadFiles corpus))

/-- Generator body of get_generator_from_jsonlines: walks the lines with a
counter starting at 0; each line increments the counter and is yielded only
when max_lines is truthy (nonzero) and the counter has not passed it,
otherwise the generator returns. -/
def genAux {α : Type} (max_lines : ℕ) : ℕ → List α → List α
  | _, [] => []
  | counter, l :: ls =>
      if max_lines ≠ 0 ∧ counter + 1 ≤ max_lines then
        l :: genAux max_lines (counter + 1) ls
      else []

/-- Model of get_generator_from_jsonlines: from the parsed lines of the
JSONLines file, the records the returned generator yields.  The source's
max_lines parameter defaults to 0. -/
def get_generator_from_jsonlines {α : Type} (lines : List α) (max_lines : ℕ) : List α :=
  genAux max_lines 0 lines

/-- Append one (key, value) pair into the key_values table of do_prepare:
a new key is appended at the end, an existing key has the value appended to
its list. -/
def addPair (kv : List (String × List String)) (k v : String) :
    List (String × List String) :=
  if kv.any (fun p => p.1 == k) then
    kv.map (fun p => if p.1 == k then (p.1, p.2 ++ [v]) else p)
  else kv ++ [(k, [v])]

/-- The in-memory structure of do_prepare: values grouped per key over all
records, keys in first-encounter order, values in encounter order. -/
def buildKeyValues (records : List (List (String × String))) :
    List (String × List String) :=
  records.foldl (fun kv r => r.foldl (fun kv2 p => addPair kv2 p.1 p.2) kv) []

/-- Filesystem state: the set of existing (leaf) directories and the files,
each recorded as (directory, full path, lines). -/
structure FsState where
  dirs : List String
  files : List (String × String × List String)
deriving DecidableEq

/-- Error raised by the write loop of do_prepare: os.makedirs raises
FileExistsError when the target directory already exists (the condition the
spec names FilesystemConflictError). -/
inductive PrepareError where
  | fileExists (dir : String)
deriving DecidableEq

/-- Write loop of do_prepare: for each key, derive the directory from the
lower-cased key, call makedirs (failing if the directory exists, stopping
the run there), then write the value lines to the key-named file inside
it.  Returns the filesystem reached together with the error, if any. -/
def runWrites (output_directory : String) :
    FsState → List (String × List String) → FsState × Option PrepareError
  | fs, [] => (fs, none)
  | fs, (key, values) :: rest =>
      let dir := output_directory ++ "/" ++ strToLower key
      if dir ∈ fs.dirs then (fs, some (PrepareError.fileExists dir))
      else
        runWrites output_directory
          ⟨dir :: fs.dirs, (dir, dir ++ "/" ++ key ++ ".txt", values) :: fs.files⟩
          rest

/-- The prepare operation: read the JSONLines records through the generator
capped at 10000 lines, group values per key, and run the write loop against
the given filesystem state. -/
def do_prepare (output_directory : String) (fs : FsState)
    (records : List (List (String × String))) : FsState × Option PrepareError :=
  runWrites output_directory fs
    (buildKeyValues (get_generator_from_jsonlines records 10000))

/-- The files of a filesystem state that sit in a given directory. -/
def filesIn (d : String) (fs : FsState) : List (String × String × List String) :=
  fs.files.filter (fun f => f.1 == d)

/-- Contents of the file at a given full path, if present. -/
def getFile (fs : FsState) (path : String) : Option (List String) :=
  (fs.files.find? (fun f => f.2.1 == path)).map (fun f => f.2.2)

/-- Inverse document frequency assigned by TfidfTransformer.fit with its
default smooth_idf setting to the vocabulary term with index i. -/
noncomputable def idfOf (docs : List String) (i : ℕ) : ℝ :=
  Real.log ((1 + docs.length) / (1 + dfOf docs i)) + 1

/-- Euclidean norm of the idf-scaled count row of a document, used by the
default l2 normalization of TfidfTransformer. -/
noncomputable def rowNorm (vocab : List String) (idf : ℕ → ℝ) (d : String) : ℝ :=
  Real.sqrt (∑ j ∈ Finset.range vocab.length,
    (cntTok d (vocab.getD j "") * idf j) ^ 2)

/-- One entry of the TF-IDF feature vector of a document against a frozen
vocabulary and idf vector: count times idf, divided by the row's Euclidean
norm (an all-zero row is left all zero, matching sklearn, since division by
zero yields zero). -/
noncomputable def tfidfEntry (vocab : List String) (idf : ℕ → ℝ) (d : String) (i : ℕ) : ℝ :=
  (cntTok d (vocab.getD i "") * idf i) / rowNorm vocab idf d

/-- Per-class feature sum of MultinomialNB.fit: the sum, over the training
documents labelled c, of the TF-IDF entry for term i (the rows of the
feature_count matrix). -/
noncomputable def featSum (docs : List String) (target : List ℕ) (c i : ℕ) : ℝ :=
  (((docs.zip target).filter (fun p => p.2 == c)).map
    (fun p => tfidfEntry (vocabOf docs) (idfOf docs) p.1 i)).sum

/-- Total TF-IDF mass of class c: the sum of its feature sums over the
whole vocabulary. -/
noncomputable def totalMass (docs : List String) (target : List ℕ) (c : ℕ) : ℝ :=
  ∑ i ∈ Finset.range (vocabOf docs).length, featSum docs target c i

/-- Class log-prior of MultinomialNB.fit with its default fit_prior: the
log of the class's sample count minus the log of the total sample count. -/
noncomputable def clpOf (target : List ℕ) (c : ℕ) : ℝ :=
  Real.log (target.count c) - Real.log target.length

/-- Per-class per-term log-likelihood of MultinomialNB.fit with the default
alpha of 1: log of the smoothed feature count minus log of the smoothed
class total (the smoothed class total adds alpha once per vocabulary
term). -/
noncomputable def flpOf (docs : List String) (target : List ℕ) (c i : ℕ) : ℝ :=
  Real.log (featSum docs target c i + 1) -
    Real.log (totalMass docs target c + (vocabOf docs).length)

/-- Parameters produced by fitting the classifier inside do_test_phrase:
the frozen vocabulary, the sorted class list, the class log-priors and the
per-class per-term log-likelihoods. -/
structure NBModel where
  vocabulary : List String
  classes : List ℕ
  classLogPrior : ℕ → ℝ
  featureLogProb : ℕ → ℕ → ℝ

/-- The fitting pass of do_test_phrase: CountVectorizer.fit_transform,
TfidfTransformer.fit_transform and MultinomialNB.fit over the artifact's
documents and labels, bundled into the resulting parameters. -/
noncomputable def fitNB (docs : List String) (target : List ℕ) : NBModel :=
  ⟨vocabOf docs, classesOf target, clpOf target, flpOf docs target⟩

/-- First-maximum scan of numpy argmax: keep the current best and replace
it only on a strictly larger score, so the first of several maxima wins. -/
noncomputable def argmaxAux (f : ℕ → ℝ) : ℕ → List ℕ → ℕ
  | best, [] => best
  | best, c :: rest => argmaxAux f (if f best < f c then c else best) rest

/-- Index of the first maximal score in a candidate list (numpy argmax over
the class list); 0 on an empty list, which the script never hits. -/
noncomputable def argmaxFirst (f : ℕ → ℝ) : List ℕ → ℕ
  | [] => 0
  | c :: rest => argmaxAux f c rest

/-- Joint log-likelihood computed by MultinomialNB.predict for class c on
the test phrase: the class log-prior plus the dot product of the phrase's
TF-IDF feature vector (built against the frozen vocabulary and idf, unknown
tokens dropped) with the class's term log-likelihoods. -/
noncomputable def jllOf (docs : List String) (target : List ℕ) (phrase : String) (c : ℕ) : ℝ :=
  clpOf target c + ∑ i ∈ Finset.range (vocabOf docs).length,
    tfidfEntry (vocabOf docs) (idfOf docs) phrase i * flpOf docs target c i

/-- Class label predicted for the phrase: the first class of the sorted
class list whose joint log-likelihood is maximal. -/
noncomputable def predictIdx (docs : List String) (target : List ℕ) (phrase : String) : ℕ :=
  argmaxFirst (jllOf docs target phrase) (classesOf target)

/-- The test-phrase operation: unfold the pickled training set, refit the
vectorizer, TF-IDF transform and classifier on its raw documents and
labels, predict the phrase's class, and report the class's category
name. -/
noncomputable def do_test_phrase (ts : TrainingSet) (phrase : String) : String :=
  ts.target_names.getD (predictIdx ts.data ts.target phrase) ""

/-- Prior probability of class c among the training labels (the class's
document fraction, before taking logarithms). -/
noncomputable def priorOf (target : List ℕ) (c : ℕ) : ℝ :=
  (target.count c : ℝ) / target.length

/-- Modelled from the spec: per-category log-prior, the log of the
category's document-fraction among training data. -/
noncomputable def specLogPrior (target : List ℕ) (c : ℕ) : ℝ :=
  Real.log (priorOf target c)

/-- Modelled from the spec: per-category per-term log-likelihood, the log
of (weighted term sum + alpha) over (total weighted term mass in the
category + alpha times vocabulary size), with alpha = 1. -/
noncomputable def specLogLik (docs : List String) (target : List ℕ) (c i : ℕ) : ℝ :=
  Real.log ((featSum docs target c i + 1) /
    (totalMass docs target c + (vocabOf docs).length))

/-- Modelled from the spec: score of a category on a phrase, the log-prior
plus the sum of feature value times term log-likelihood. -/
noncomputable def specScore (docs : List String) (target : List ℕ) (phrase : String) (c : ℕ) : ℝ :=
  specLogPrior target c + ∑ i ∈ Finset.range (vocabOf docs).length,
    tfidfEntry (vocabOf docs) (idfOf docs) phrase i * specLogLik docs target c i

/-- Modelled from the spec: the predictor of section 4.4, selecting the
category with the maximal score, ties broken by the first-encountered
category in the stored order. -/
noncomputable def specPredict (ts : TrainingSet) (phrase : String) : String :=
  ts.target_names.getD
    (argmaxFirst (specScore ts.data ts.target phrase) (classesOf ts.target)) ""

/-- Modelled from the spec: the Model Artifact tuple of section 3 —
vocabulary, IDF weights, classifier parameters (log-priors and
log-likelihoods) and the category name list. -/
structure SpecArtifact where
  vocabulary : List String
  idfWeights : ℕ → ℝ
  classLogPrior : ℕ → ℝ
  featureLogProb : ℕ → ℕ → ℝ
  categories : List String

/-- Modelled from the spec: the artifact tuple the spec says training
produces, computed from a loaded training set by fitting vocabulary, IDF
weights and classifier parameters over its documents and labels. -/
noncomputable def specArtifactOf (ts : TrainingSet) : SpecArtifact :=
  ⟨vocabOf ts.data, idfOf ts.data, specLogPrior ts.target,
    specLogLik ts.data ts.target, ts.target_names⟩

/-- A one-category corpus whose single file is named a.txt. -/
def corpusA : List (String × List (String × String)) :=
  [("cat", [("a.txt", "hello world")])]

/-- The same one-category corpus with the single file renamed to b.txt,
its contents unchanged. -/
def corpusB : List (String × List (String × String)) :=
  [("cat", [("b.txt", "hello world")])]

/-- A corpus with only one category present. -/
def corpusSingle : List (String × List (String × String)) :=
  [("color", [("color.txt", "red")])]

theorem genAux_eq_take {α : Type} (m : ℕ) (l : List α) :
    ∀ k : ℕ, genAux m k l = if m = 0 then [] else l.take (m - k) := by
  induction l with
  | nil => intro k; simp [genAux]
  | cons x xs ih =>
    intro k
    by_cases hm : m = 0
    · simp [genAux, hm]
    · by_cases hk : k + 1 ≤ m
      · rw [genAux, if_pos ⟨hm, hk⟩, ih (k + 1), if_neg hm, if_neg hm]
        have hmk : m - k = (m - (k + 1)) + 1 := by omega
        rw [hmk, List.take_succ_cons]
      · rw [genAux, if_neg (by tauto), if_neg hm]
        have hmk : m - k = 0 := by omega
        rw [hmk, List.take_zero]

/-- C10: the generator built by get_generator_from_jsonlines yields exactly
the first max_lines lines (so at most max_lines records, stopping at the
first line past the cap); with max_lines = 0, its default, it yields no
records at all; and do_prepare, which passes 10000, therefore processes
only the first 10000 records and discards the rest. -/
theorem generator_cap_take {α : Type} (lines : List α) (m : ℕ) (out : String)
    (fs : FsState) (records : List (List (String × String))) :
    get_generator_from_jsonlines lines 0 = [] ∧
    get_generator_from_jsonlines lines m = lines.take m ∧
    (get_generator_from_jsonlines lines m).length ≤ m ∧
    do_prepare out fs records =
      runWrites out fs (buildKeyValues (records.take 10000)) := by
  have hg : ∀ (n : ℕ), get_generator_from_jsonlines lines n = lines.take n := by
    intro n
    rw [get_generator_from_jsonlines, genAux_eq_take]
    by_cases hn : n = 0
    · simp [hn]
    · rw [if_neg hn, Nat.sub_zero]
  refine ⟨by rw [hg 0, List.take_zero], hg m, ?_, ?_⟩
  · rw [hg m, List.length_take]; exact min_le_left _ _
  · rw [do_prepare, get_generator_from_jsonlines, genAux_eq_take]
    simp

/-- C3: feeding prepare the record with color red, size M followed by the
record with color blue, size L, with output root out, produces the file
out/color/color.txt with lines red then blue and the file
out/size/size.txt with lines M then L, and no error. -/
theorem do_prepare_scenario_colors_sizes :
    getFile (do_prepare "out" ⟨[], []⟩
      [[("color", "red"), ("size", "M")], [("color", "blue"), ("size", "L")]]).1
      "out/color/color.txt" = some ["red", "blue"] ∧
    getFile (do_prepare "out" ⟨[], []⟩
      [[("color", "red"), ("size", "M")], [("color", "blue"), ("size", "L")]]).1
      "out/size/size.txt" = some ["M", "L"] ∧
    (do_prepare "out" ⟨[], []⟩
      [[("color", "red"), ("size", "M")], [("color", "blue"), ("size", "L")]]).2
      = none := by
  refine ⟨?_, ?_, ?_⟩ <;> decide

theorem readList_map {β : Type} (dec : PItem → Option β) (enc : β → PItem)
    (h : ∀ a, dec (enc a) = some a) (l : List β) (rest : List PItem) :
    readList dec l.length (l.map enc ++ rest) = some (l, rest) := by
  induction l with
  | nil => simp [readList]
  | cons a as ih => simp [readList, h, ih]

theorem readBlock_writeBlock {β : Type} (dec : PItem → Option β) (enc : β → PItem)
    (h : ∀ a, dec (enc a) = some a) (l : List β) (rest : List PItem) :
    readBlock dec (writeBlock enc l ++ rest) = some (l, rest) := by
  rw [writeBlock, List.cons_append, readBlock]
  simp [readNat, readList_map dec enc h]

theorem pickle_load_dump (ts : TrainingSet) :
    pickle_load (pickle_dump ts) = some ts := by
  obtain ⟨d, t, n, f⟩ := ts
  have hs : ∀ s : String, readStr (PItem.pstr s) = some s := fun _ => rfl
  have hn : ∀ k : ℕ, readNat (PItem.pnat k) = some k := fun _ => rfl
  have hshape : pickle_dump ⟨d, t, n, f⟩ =
      writeBlock PItem.pstr d ++ (writeBlock PItem.pnat t ++
        (writeBlock PItem.pstr n ++ (writeBlock PItem.pstr f ++ []))) := by
    simp [pickle_dump]
  rw [pickle_load, hshape, readBlock_writeBlock readStr PItem.pstr hs]
  simp only [Option.bind_eq_bind, Option.some_bind]
  rw [readBlock_writeBlock readNat PItem.pnat hn]
  simp only [Option.some_bind]
  rw [readBlock_writeBlock readStr PItem.pstr hs]
  simp only [Option.some_bind]
  rw [readBlock_writeBlock readStr PItem.pstr hs]
  simp

/-- C4: the artifact store round-trips exactly: loading the stream written
for a model artifact yields a value equal to it in every field of the
artifact the script stores (document data, integer labels, category name
list, file names). -/
theorem pickle_roundtrip (ts : TrainingSet) :
    pickle_load (pickle_dump ts) = some ts :=
  pickle_load_dump ts

/-- C2 counterexample: the train operation, fed a corpus with only one
category present, does not fail: it returns this artifact stream (the
pickled raw training set) instead of InsufficientTrainingDataError, so an
artifact file is produced. -/
theorem do_train_single_category_succeeds :
    do_train corpusSingle =
      Except.ok [PItem.pnat 1, PItem.pstr "red", PItem.pnat 1, PItem.pnat 0,
        PItem.pnat 1, PItem.pstr "color", PItem.pnat 1,
        PItem.pstr "color/color.txt"] ∧
    do_train corpusSingle ≠ Except.error TrainError.insufficientTrainingData := by
  constructor
  · rw [do_train]
    have h : loadFiles corpusSingle =
        ⟨["red"], [0], ["color"], ["color/color.txt"]⟩ := by decide
    rw [h]
    rfl
  · intro h
    exact Except.noConfusion h

/-- C2 amended: the train operation performs no validation at all: for
every corpus, in particular one with a single category, it succeeds with
the pickled raw training set as the artifact (which decodes back to that
training set), never with InsufficientTrainingDataError. -/
theorem do_train_no_validation (corpus : List (String × List (String × String)))
    (h : corpus.length = 1) :
    ∃ blob, do_train corpus = Except.ok blob ∧
      pickle_load blob = some (loadFiles corpus) :=
  ⟨pickle_dump (loadFiles corpus), rfl, pickle_load_dump (loadFiles corpus)⟩

theorem do_train_no_validation_witness :
    corpusSingle.length = 1 ∧
    ∃ blob, do_train corpusSingle = Except.ok blob ∧
      pickle_load blob = some (loadFiles corpusSingle) :=
  ⟨rfl, do_train_no_validation corpusSingle rfl⟩

/-- C1 counterexample: the artifact written by the train operation is not
the spec's tuple (vocabulary, IDF weights, classifier parameters, category
list): the corpora corpusA and corpusB have equal spec tuples (identical
documents and labels, only a file name differs), yet do_train writes
different artifacts, because the artifact is the raw loaded training set
and not the fitted tuple. -/
theorem train_artifact_not_spec_tuple :
    specArtifactOf (loadFiles corpusA) = specArtifactOf (loadFiles corpusB) ∧
    do_train corpusA ≠ do_train corpusB := by
  constructor
  · have hA : loadFiles corpusA =
        ⟨["hello world"], [0], ["cat"], ["cat/a.txt"]⟩ := by decide
    have hB : loadFiles corpusB =
        ⟨["hello world"], [0], ["cat"], ["cat/b.txt"]⟩ := by decide
    rw [hA, hB]
    rfl
  · intro h
    rw [do_train, do_train] at h
    have hblob : pickle_dump (loadFiles corpusA) = pickle_dump (loadFiles corpusB) :=
      Except.ok.inj h
    exact absurd hblob (by decide)

theorem argmaxAux_congr (f g : ℕ → ℝ) : ∀ (l : List ℕ) (b : ℕ),
    (∀ x ∈ b :: l, f x = g x) → argmaxAux f b l = argmaxAux g b l := by
  intro l
  induction l with
  | nil => intro b _; rfl
  | cons c rest ih =>
    intro b h
    have hb : f b = g b := h b (List.mem_cons_self b _)
    have hc : f c = g c := h c (List.mem_cons_of_mem _ (List.mem_cons_self c _))
    rw [argmaxAux, argmaxAux, hb, hc]
    by_cases hbc : g b < g c
    · simp only [hbc, if_true]
      exact ih c (fun x hx => h x (List.mem_cons_of_mem _ hx))
    · simp only [hbc, if_false]
      exact ih b (fun x hx => by
        rcases List.mem_cons.mp hx with h1 | h2
        · rw [h1]; exact hb
        · exact h x (List.mem_cons_of_mem _ (List.mem_cons_of_mem _ h2)))

theorem argmaxFirst_congr (f g : ℕ → ℝ) (l : List ℕ)
    (h : ∀ x ∈ l, f x = g x) : argmaxFirst f l = argmaxFirst g l := by
  cases l with
  | nil => rfl
  | cons c rest => exact argmaxAux_congr f g rest c h

theorem argmaxAux_mem (f : ℕ → ℝ) : ∀ (l : List ℕ) (b : ℕ), argmaxAux f b l ∈ b :: l := by
  intro l
  induction l with
  | nil => intro b; rw [argmaxAux]; exact List.mem_cons_self b []
  | cons c rest ih =>
    intro b
    rw [argmaxAux]
    by_cases hbc : f b < f c
    · rw [if_pos hbc]
      exact List.mem_cons_of_mem b (ih c)
    · rw [if_neg hbc]
      rcases List.mem_cons.mp (ih b) with h1 | h2
      · rw [h1]; exact List.mem_cons_self _ _
      · exact List.mem_cons_of_mem _ (List.mem_cons_of_mem _ h2)

theorem argmaxAux_le (f : ℕ → ℝ) : ∀ (l : List ℕ) (b x : ℕ),
    x ∈ b :: l → f x ≤ f (argmaxAux f b l) := by
  intro l
  induction l with
  | nil =>
    intro b x hx
    rw [argmaxAux]
    rcases List.mem_cons.mp hx with h1 | h2
    · rw [h1]
    · exact absurd h2 (List.not_mem_nil x)
  | cons c rest ih =>
    intro b x hx
    rw [argmaxAux]
    by_cases hbc : f b < f c
    · rw [if_pos hbc]
      rcases List.mem_cons.mp hx with h1 | h2
      · have h3 : f c ≤ f (argmaxAux f c rest) := ih c c (List.mem_cons_self _ _)
        rw [h1]; exact le_trans (le_of_lt hbc) h3
      · exact ih c x h2
    · rw [if_neg hbc]
      rcases List.mem_cons.mp hx with h1 | h2
      · rw [h1]; exact ih b b (List.mem_cons_self _ _)
      · rcases List.mem_cons.mp h2 with h3 | h4
        · have h5 : f b ≤ f (argmaxAux f b rest) := ih b b (List.mem_cons_self _ _)
          rw [h3]; exact le_trans (not_lt.mp hbc) h5
        · exact ih b x (List.mem_cons_of_mem _ h4)

theorem argmaxFirst_mem (f : ℕ → ℝ) (l : List ℕ) (hl : l ≠ []) :
    argmaxFirst f l ∈ l := by
  cases l with
  | nil => exact absurd rfl hl
  | cons c rest => exact argmaxAux_mem f rest c

theorem argmaxFirst_le (f : ℕ → ℝ) (l : List ℕ) (x : ℕ) (hx : x ∈ l) :
    f x ≤ f (argmaxFirst f l) := by
  cases l with
  | nil => exact absurd hx (List.not_mem_nil x)
  | cons c rest => exact argmaxAux_le f rest c x hx

theorem dfOf_le_length (docs : List String) (i : ℕ) : dfOf docs i ≤ docs.length :=
  List.countP_le_length _

theorem idfOf_nonneg (docs : List String) (i : ℕ) : 0 ≤ idfOf docs i := by
  rw [idfOf]
  have h1 : (0 : ℝ) < 1 + dfOf docs i := by positivity
  have h2 : (dfOf docs i : ℝ) ≤ docs.length := Nat.cast_le.mpr (dfOf_le_length docs i)
  have h3 : (1 : ℝ) ≤ (1 + docs.length) / (1 + dfOf docs i) := by
    rw [le_div_iff h1, one_mul]; linarith
  have h4 : 0 ≤ Real.log ((1 + docs.length) / (1 + dfOf docs i)) := Real.log_nonneg h3
  linarith

theorem tfidfEntry_nonneg (vocab : List String) (idf : ℕ → ℝ)
    (hidf : ∀ i, 0 ≤ idf i) (d : String) (i : ℕ) : 0 ≤ tfidfEntry vocab idf d i := by
  rw [tfidfEntry]
  exact div_nonneg (mul_nonneg (Nat.cast_nonneg _) (hidf i)) (Real.sqrt_nonneg _)

theorem featSum_nonneg (docs : List String) (target : List ℕ) (c i : ℕ) :
    0 ≤ featSum docs target c i := by
  rw [featSum]
  apply List.sum_nonneg
  intro x hx
  rcases List.mem_map.mp hx with ⟨p, _, hpx⟩
  rw [← hpx]
  exact tfidfEntry_nonneg _ _ (idfOf_nonneg docs) _ _

theorem totalMass_nonneg (docs : List String) (target : List ℕ) (c : ℕ) :
    0 ≤ totalMass docs target c :=
  Finset.sum_nonneg (fun i _ => featSum_nonneg docs target c i)

theorem mem_classesOf (target : List ℕ) (c : ℕ) :
    c ∈ classesOf target ↔ c ∈ target := by
  rw [classesOf, (List.perm_insertionSort _ _).mem_iff]
  exact List.mem_dedup

theorem clp_eq_specLogPrior (target : List ℕ) (c : ℕ) (hc : c ∈ target) :
    clpOf target c = specLogPrior target c := by
  have h0 : 0 < target.count c := List.count_pos_iff.mpr hc
  have h1 : (target.count c : ℝ) ≠ 0 := Nat.cast_ne_zero.mpr (Nat.pos_iff_ne_zero.mp h0)
  have h2 : (target.length : ℝ) ≠ 0 := Nat.cast_ne_zero.mpr
    (Nat.pos_iff_ne_zero.mp (List.length_pos.mpr (List.ne_nil_of_mem hc)))
  rw [specLogPrior, priorOf, Real.log_div h1 h2, clpOf]

theorem flp_eq_specLogLik (docs : List String) (target : List ℕ) (c i : ℕ)
    (hi : i < (vocabOf docs).length) :
    flpOf docs target c i = specLogLik docs target c i := by
  have h1 : featSum docs target c i + 1 ≠ 0 :=
    ne_of_gt (by have := featSum_nonneg docs target c i; linarith)
  have h2 : totalMass docs target c + ((vocabOf docs).length : ℝ) ≠ 0 := by
    have h3 := totalMass_nonneg docs target c
    have h4 : (1 : ℝ) ≤ ((vocabOf docs).length : ℝ) :=
      Nat.one_le_cast.mpr (Nat.lt_of_le_of_lt (Nat.zero_le i) hi)
    exact ne_of_gt (by linarith)
  rw [flpOf, specLogLik, Real.log_div h1 h2]

theorem jll_eq_specScore (docs : List String) (target : List ℕ)
    (phrase : String) (c : ℕ) (hc : c ∈ classesOf target) :
    jllOf docs target phrase c = specScore docs target phrase c := by
  rw [jllOf, specScore, clp_eq_specLogPrior target c ((mem_classesOf target c).mp hc)]
  congr 1
  apply Finset.sum_congr rfl
  intro i hi
  rw [flp_eq_specLogLik docs target c i (Finset.mem_range.mp hi)]

/-- C1 amended: the artifact written by train is the raw loaded training
set (document contents, integer labels, category names, file paths), and
the fitting the spec places at training time happens inside the predict
operation instead: on every call, do_test_phrase refits vocabulary, IDF
weights and classifier parameters from the artifact's raw data, and its
output coincides with the spec's predictor applied to the spec's artifact
tuple as computed from that raw data. -/
theorem test_phrase_matches_spec_predictor (ts : TrainingSet) (phrase : String) :
    do_test_phrase ts phrase = specPredict ts phrase := by
  rw [do_test_phrase, specPredict, predictIdx,
    argmaxFirst_congr _ _ _
      (fun c hc => jll_eq_specScore ts.data ts.target phrase c hc)]

/-- C5: on a phrase all of whose tokens are outside the frozen vocabulary
(including the empty phrase), the predict operation still returns a
category: the phrase's TF-IDF feature vector is all zero, the predicted
class is a member of the class list, and its prior is maximal among all
classes — the prediction is driven purely by the priors and no failure
occurs. -/
theorem predict_all_oov_returns_max_prior (docs : List String) (target : List ℕ)
    (phrase : String) (ht : target ≠ [])
    (hoov : ∀ tok ∈ tokenize phrase, tok ∉ vocabOf docs) :
    (∀ i < (vocabOf docs).length,
      tfidfEntry (vocabOf docs) (idfOf docs) phrase i = 0) ∧
    predictIdx docs target phrase ∈ classesOf target ∧
    ∀ c ∈ classesOf target,
      priorOf target c ≤ priorOf target (predictIdx docs target phrase) := by
  have hzero : ∀ i < (vocabOf docs).length,
      tfidfEntry (vocabOf docs) (idfOf docs) phrase i = 0 := by
    intro i hi
    have hterm : (vocabOf docs).getD i "" ∈ vocabOf docs := by
      rw [List.getD_eq_getElem _ _ hi]
      exact List.getElem_mem hi
    have hcnt : cntTok phrase ((vocabOf docs).getD i "") = 0 := by
      rw [cntTok, List.count_eq_zero]
      intro hmem
      exact hoov _ hmem hterm
    rw [tfidfEntry, hcnt]
    simp
  have hcls : classesOf target ≠ [] := by
    obtain ⟨c, hc⟩ := List.exists_mem_of_ne_nil target ht
    intro hnil
    have hmem := (mem_classesOf target c).mpr hc
    rw [hnil] at hmem
    exact List.not_mem_nil c hmem
  have hjll : ∀ c ∈ classesOf target,
      jllOf docs target phrase c = clpOf target c := by
    intro c _
    rw [jllOf]
    have hsum : ∑ i ∈ Finset.range (vocabOf docs).length,
        tfidfEntry (vocabOf docs) (idfOf docs) phrase i * flpOf docs target c i
        = 0 := by
      apply Finset.sum_eq_zero
      intro i hi
      rw [hzero i (Finset.mem_range.mp hi), zero_mul]
    rw [hsum, add_zero]
  have hrmem : predictIdx docs target phrase ∈ classesOf target := by
    rw [predictIdx]
    exact argmaxFirst_mem _ _ hcls
  refine ⟨hzero, hrmem, ?_⟩
  intro c hc
  have hle : jllOf docs target phrase c ≤
      jllOf docs target phrase (predictIdx docs target phrase) := by
    rw [predictIdx]
    exact argmaxFirst_le _ _ c hc
  rw [hjll c hc, hjll _ hrmem] at hle
  have hcmem : c ∈ target := (mem_classesOf target c).mp hc
  have hrmem' : predictIdx docs target phrase ∈ target :=
    (mem_classesOf target _).mp hrmem
  have hcp : (0 : ℝ) < target.count c := by
    exact_mod_cast List.count_pos_iff.mpr hcmem
  have hrp : (0 : ℝ) < target.count (predictIdx docs target phrase) := by
    exact_mod_cast List.count_pos_iff.mpr hrmem'
  have hnp : (0 : ℝ) < target.length := by
    exact_mod_cast List.length_pos.mpr ht
  rw [clpOf, clpOf, sub_le_sub_iff_right] at hle
  have hcount : (target.count c : ℝ) ≤
      target.count (predictIdx docs target phrase) := by
    have hexp := Real.exp_le_exp.mpr hle
    rwa [Real.exp_log hcp, Real.exp_log hrp] at hexp
  rw [priorOf, priorOf]
  exact div_le_div_of_nonneg_right hcount (le_of_lt hnp)

theorem predict_all_oov_witness :
    (["hello there", "market close"] : List String) ≠ [] ∧
    ([0, 1] : List ℕ) ≠ [] ∧
    (∀ tok ∈ tokenize "zzzq", tok ∉ vocabOf ["hello there", "market close"]) ∧
    ((∀ i < (vocabOf ["hello there", "market close"]).length,
      tfidfEntry (vocabOf ["hello there", "market close"])
        (idfOf ["hello there", "market close"]) "zzzq" i = 0) ∧
    predictIdx ["hello there", "market close"] [0, 1] "zzzq" ∈ classesOf [0, 1] ∧
    ∀ c ∈ classesOf [0, 1],
      priorOf [0, 1] c ≤
        priorOf [0, 1] (predictIdx ["hello there", "market close"] [0, 1] "zzzq")) := by
  refine ⟨by decide, by decide, by decide, ?_⟩
  exact predict_all_oov_returns_max_prior ["hello there", "market close"] [0, 1]
    "zzzq" (by decide) (by decide)

theorem vocabOf_perm (docs₁ docs₂ : List String) (h : docs₁.Perm docs₂) :
    vocabOf docs₁ = vocabOf docs₂ := by
  have htok : (docs₁.flatMap tokenize).Perm (docs₂.flatMap tokenize) :=
    h.flatMap_right tokenize
  have hperm : (vocabOf docs₁).Perm (vocabOf docs₂) :=
    ((List.perm_insertionSort strLe _).trans htok.dedup).trans
      (List.perm_insertionSort strLe _).symm
  exact List.eq_of_perm_of_sorted hperm
    (List.sorted_insertionSort strLe _) (List.sorted_insertionSort strLe _)

theorem classesOf_perm (t₁ t₂ : List ℕ) (h : t₁.Perm t₂) :
    classesOf t₁ = classesOf t₂ := by
  have hperm : (classesOf t₁).Perm (classesOf t₂) :=
    ((List.perm_insertionSort _ _).trans h.dedup).trans
      (List.perm_insertionSort _ _).symm
  exact List.eq_of_perm_of_sorted hperm
    (List.sorted_insertionSort _ _) (List.sorted_insertionSort _ _)

theorem idfOf_perm (docs₁ docs₂ : List String) (h : docs₁.Perm docs₂) :
    idfOf docs₁ = idfOf docs₂ := by
  funext i
  rw [idfOf, idfOf, dfOf, dfOf, dfTerm, dfTerm, vocabOf_perm docs₁ docs₂ h,
    h.countP_eq, h.length_eq]

/-- C7: fitting is order-independent: for any two document lists with
consistently permuted labels (the zipped document-label lists are
permutations of each other), the fitted parameters — vocabulary, class
list, class log-priors and per-class per-term log-likelihoods — are
identical. -/
theorem fitNB_perm_invariant (docs₁ docs₂ : List String) (t₁ t₂ : List ℕ)
    (h₁ : docs₁.length = t₁.length) (h₂ : docs₂.length = t₂.length)
    (hp : (docs₁.zip t₁).Perm (docs₂.zip t₂)) :
    fitNB docs₁ t₁ = fitNB docs₂ t₂ := by
  have hd : docs₁.Perm docs₂ := by
    have hm := hp.map Prod.fst
    rwa [List.map_fst_zip _ _ (le_of_eq h₁), List.map_fst_zip _ _ (le_of_eq h₂)] at hm
  have ht : t₁.Perm t₂ := by
    have hm := hp.map Prod.snd
    rwa [List.map_snd_zip _ _ (le_of_eq h₁.symm),
      List.map_snd_zip _ _ (le_of_eq h₂.symm)] at hm
  have hvocab : vocabOf docs₁ = vocabOf docs₂ := vocabOf_perm _ _ hd
  have hidf : idfOf docs₁ = idfOf docs₂ := idfOf_perm _ _ hd
  have hfeat : ∀ c i, featSum docs₁ t₁ c i = featSum docs₂ t₂ c i := by
    intro c i
    rw [featSum, featSum, hvocab, hidf]
    exact List.Perm.sum_eq ((hp.filter _).map _)
  have htm : ∀ c, totalMass docs₁ t₁ c = totalMass docs₂ t₂ c := by
    intro c
    rw [totalMass, totalMass, hvocab]
    exact Finset.sum_congr rfl (fun j _ => hfeat c j)
  have hclp : clpOf t₁ = clpOf t₂ := by
    funext c
    rw [clpOf, clpOf, ht.count_eq, ht.length_eq]
  have hflp : flpOf docs₁ t₁ = flpOf docs₂ t₂ := by
    funext c i
    rw [flpOf, flpOf, hfeat, htm, hvocab]
  rw [fitNB, fitNB, hvocab, classesOf_perm _ _ ht, hclp, hflp]

theorem fitNB_perm_invariant_witness :
    (["aa bb", "cc dd"].zip [0, 1]).Perm (["cc dd", "aa bb"].zip [1, 0]) ∧
    (["aa bb", "cc dd"] : List String).length = ([0, 1] : List ℕ).length ∧
    (["cc dd", "aa bb"] : List String).length = ([1, 0] : List ℕ).length ∧
    fitNB ["aa bb", "cc dd"] [0, 1] = fitNB ["cc dd", "aa bb"] [1, 0] :=
  ⟨by decide, by decide, by decide,
    fitNB_perm_invariant ["aa bb", "cc dd"] ["cc dd", "aa bb"] [0, 1] [1, 0]
      (by decide) (by decide) (by decide)⟩

/-- C8: for every nonempty training label list (every class of the fitted
model then has at least one document by construction), the class log-priors
produced by the fit sum to exactly 1 across the classes after
exponentiation (so also within any floating-point tolerance). -/
theorem logPrior_exp_sum_one (target : List ℕ) (ht : target ≠ []) :
    ((classesOf target).map (fun c => Real.exp (clpOf target c))).sum = 1 := by
  have hn : (0 : ℝ) < target.length := by
    exact_mod_cast List.length_pos.mpr ht
  have hstep : ∀ c ∈ classesOf target,
      Real.exp (clpOf target c) = (target.count c : ℝ) / target.length := by
    intro c hc
    have hcp : (0 : ℝ) < target.count c := by
      exact_mod_cast List.count_pos_iff.mpr ((mem_classesOf target c).mp hc)
    rw [clpOf, Real.exp_sub, Real.exp_log hcp, Real.exp_log hn]
  rw [List.map_congr_left hstep]
  have hnodup : (classesOf target).Nodup :=
    ((List.perm_insertionSort _ _).nodup_iff).mpr (List.nodup_dedup target)
  rw [← List.sum_toFinset _ hnodup]
  have htf : (classesOf target).toFinset = target.toFinset := by
    ext c
    simp only [List.mem_toFinset]
    exact mem_classesOf target c
  rw [htf, ← Finset.sum_div]
  have hsum : ∑ c ∈ target.toFinset, (target.count c : ℝ) = (target.length : ℝ) := by
    rw [← Nat.cast_sum]
    congr 1
    have hms := Multiset.toFinset_sum_count_eq (target : Multiset ℕ)
    simpa using hms
  rw [hsum, div_self (ne_of_gt hn)]

theorem logPrior_exp_sum_one_witness :
    ([0, 0, 1] : List ℕ) ≠ [] ∧
    ((classesOf [0, 0, 1]).map (fun c => Real.exp (clpOf [0, 0, 1] c))).sum = 1 :=
  ⟨by decide, logPrior_exp_sum_one [0, 0, 1] (by decide)⟩

/-- C9: the IDF weight assigned to every vocabulary term equals
log((1 + N) / (1 + df)) + 1, where N is the number of training documents
and df is the number of training documents containing the term (membership
of the term in the document's token list); the code computes df from the
nonzero entries of the count matrix, which coincides with document
containment. -/
theorem idf_formula_spec (docs : List String) (i : ℕ)
    (hi : i < (vocabOf docs).length) :
    idfOf docs i = Real.log ((1 + (docs.length : ℝ)) /
      (1 + (docs.countP
        (fun d => decide (((vocabOf docs).getD i "") ∈ tokenize d)) : ℝ))) + 1 := by
  rw [idfOf, dfOf, dfTerm]
  have hpt : (fun d => cntTok d ((vocabOf docs).getD i "") != 0)
      = (fun d => decide (((vocabOf docs).getD i "") ∈ tokenize d)) := by
    funext d
    generalize (vocabOf docs).getD i "" = X
    by_cases hmem : X ∈ tokenize d
    · have hne : cntTok d X ≠ 0 :=
        Nat.pos_iff_ne_zero.mp (List.count_pos_iff.mpr hmem)
      simp [hne, hmem]
    · have hz : cntTok d X = 0 := List.count_eq_zero.mpr hmem
      simp [hz, hmem]
  rw [hpt]

theorem idf_formula_spec_witness :
    0 < (vocabOf ["hello world", "hello there"]).length ∧
    idfOf ["hello world", "hello there"] 0 =
      Real.log ((1 + ((["hello world", "hello there"] : List String).length : ℝ)) /
        (1 + ((["hello world", "hello there"].countP
          (fun d => decide (((vocabOf ["hello world", "hello there"]).getD 0 "")
            ∈ tokenize d))) : ℝ))) + 1 :=
  ⟨by decide, idf_formula_spec ["hello world", "hello there"] 0 (by decide)⟩

theorem runWrites_conflict_error (out : String) (es : List (String × List String)) :
    ∀ fs : FsState, (∃ e ∈ es, (out ++ "/" ++ strToLower e.1) ∈ fs.dirs) →
    ((runWrites out fs es).2).isSome = true := by
  induction es with
  | nil =>
    intro fs h
    obtain ⟨e, he, _⟩ := h
    exact absurd he (List.not_mem_nil e)
  | cons kv rest ih =>
    intro fs h
    obtain ⟨e, he, hdir⟩ := h
    obtain ⟨key, values⟩ := kv
    simp only [runWrites]
    split
    · rfl
    · next hc =>
      rcases List.mem_cons.mp he with h1 | h2
      · rw [h1] at hdir
        exact absurd hdir hc
      · exact ih _ ⟨e, h2, List.mem_cons_of_mem _ hdir⟩

theorem runWrites_preserves_existing (out : String) (es : List (String × List String)) :
    ∀ (fs : FsState) (d : String), d ∈ fs.dirs →
    filesIn d (runWrites out fs es).1 = filesIn d fs := by
  induction es with
  | nil => intro fs d _; rfl
  | cons kv rest ih =>
    intro fs d hd
    obtain ⟨key, values⟩ := kv
    simp only [runWrites]
    split
    · rfl
    · next hc =>
      rw [ih _ d (List.mem_cons_of_mem _ hd)]
      rw [filesIn, filesIn]
      have hne : ((out ++ "/" ++ strToLower key : String) == d) = false := by
        have hd2 : (out ++ "/" ++ strToLower key) ≠ d := fun hEq => hc (hEq ▸ hd)
        simpa using hd2
      simp only [List.filter, hne]

/-- C6: when some output subdirectory that prepare would create already
exists in the filesystem, the operation fails (os.makedirs raises the
condition the spec names FilesystemConflictError, surfaced to the caller)
and the files of every pre-existing directory are left untouched — new
values are never merged into a pre-existing directory. -/
theorem do_prepare_existing_dir_conflict (out : String) (fs : FsState)
    (records : List (List (String × String)))
    (h : ∃ e ∈ buildKeyValues (get_generator_from_jsonlines records 10000),
      (out ++ "/" ++ strToLower e.1) ∈ fs.dirs) :
    ((do_prepare out fs records).2).isSome = true ∧
    ∀ d ∈ fs.dirs, filesIn d (do_prepare out fs records).1 = filesIn d fs := by
  constructor
  · rw [do_prepare]
    exact runWrites_conflict_error out _ fs h
  · intro d hd
    rw [do_prepare]
    exact runWrites_preserves_existing out _ fs d hd

theorem do_prepare_existing_dir_conflict_witness :
    (∃ e ∈ buildKeyValues (get_generator_from_jsonlines [[("color", "red")]] 10000),
      ("out" ++ "/" ++ strToLower e.1) ∈ (FsState.mk ["out/color"]
        [("out/color", "out/color/color.txt", ["old"])]).dirs) ∧
    ((do_prepare "out" ⟨["out/color"], [("out/color", "out/color/color.txt", ["old"])]⟩
      [[("color", "red")]]).2).isSome = true ∧
    ∀ d ∈ (FsState.mk ["out/color"]
        [("out/color", "out/color/color.txt", ["old"])]).dirs,
      filesIn d (do_prepare "out"
        ⟨["out/color"], [("out/color", "out/color/color.txt", ["old"])]⟩
        [[("color", "red")]]).1 =
      filesIn d ⟨["out/color"], [("out/color", "out/color/color.txt", ["old"])]⟩ :=
  ⟨by decide, do_prepare_existing_dir_conflict "out"
    ⟨["out/color"], [("out/color", "out/color/color.txt", ["old"])]⟩
    [[("color", "red")]] (by decide)⟩
